import Mathlib

/-!
Verification of the weighted-sample data model of the poppy repository
(src/poppy/samples.py and src/poppy/samplers/mcmc.py), shallowly embedded
over real numbers: numpy arrays become lists of reals, Python `None`
becomes `Option.none`, and operations that would raise on missing fields
return `Option`.
-/

/-- Modelled from the spec: `logsumexp` lives in poppy/utils.py, which is not
part of the provided sources; the spec uses the standard reduction
`logsumexp l = log (Σ_i exp l_i)`. -/
noncomputable def logsumexp (l : List ℝ) : ℝ :=
  Real.log (l.map Real.exp).sum

/-- Embedding of `xp.max` over a one-dimensional array, as a left fold
(the value on the empty list is arbitrary; numpy raises there). -/
def listMax : List ℝ → ℝ
  | [] => 0
  | a :: rest => rest.foldl max a

/-- Boolean-mask selection `arr[mask]` of numpy, keeping the rows whose
mask entry is `true`. -/
def maskSelect {α : Type} (mask : List Bool) (l : List α) : List α :=
  (List.zip mask l).filterMap (fun p => if p.1 then some p.2 else none)

/-- Elementwise access through `zipWith` at an in-range index. -/
theorem getD_zipWith_real (f : ℝ → ℝ → ℝ) :
    ∀ (a b : List ℝ) (i : ℕ), i < a.length → i < b.length →
      (List.zipWith f a b).getD i 0 = f (a.getD i 0) (b.getD i 0) := by
  intro a
  induction a with
  | nil => intro b i h _; simp at h
  | cons x xs ih =>
    intro b i h1 h2
    cases b with
    | nil => simp at h2
    | cons y ys =>
      cases i with
      | zero => simp
      | succ j =>
        simp only [List.zipWith_cons_cons, List.getD_cons_succ]
        exact ih ys j (by simpa using h1) (by simpa using h2)

/-- Elementwise access through `map` at an in-range index. -/
theorem getD_map_real (f : ℝ → ℝ) :
    ∀ (l : List ℝ) (i : ℕ), i < l.length →
      (l.map f).getD i 0 = f (l.getD i 0) := by
  intro l
  induction l with
  | nil => intro i h; simp at h
  | cons x xs ih =>
    intro i h
    cases i with
    | zero => simp
    | succ j =>
      simp only [List.map_cons, List.getD_cons_succ]
      exact ih j (by simpa using h)

/-- A sum of pointwise-nonnegative values is nonnegative. -/
theorem sum_map_nonneg_of (f : ℝ → ℝ) (l : List ℝ) (hf : ∀ t, 0 ≤ f t) :
    0 ≤ (l.map f).sum := by
  induction l with
  | nil => simp
  | cons x xs ih => simpa using add_nonneg (hf x) ih

/-- A nonempty sum of pointwise-positive values is positive. -/
theorem sum_map_pos_of (f : ℝ → ℝ) (l : List ℝ) (h : l ≠ []) (hf : ∀ t, 0 < f t) :
    0 < (l.map f).sum := by
  cases l with
  | nil => exact absurd rfl h
  | cons x xs =>
    simpa using add_pos_of_pos_of_nonneg (hf x)
      (sum_map_nonneg_of f xs (fun t => (hf t).le))

/-- Exponentiating `logsumexp` of a nonempty list recovers the sum of
exponentials. -/
theorem exp_logsumexp (l : List ℝ) (h : l ≠ []) :
    Real.exp (logsumexp l) = (l.map Real.exp).sum := by
  exact Real.exp_log (sum_map_pos_of Real.exp l h (fun t => Real.exp_pos t))

/-- Factoring a constant out of a mapped sum. -/
theorem sum_map_mul_left_real (c : ℝ) (f : ℝ → ℝ) (l : List ℝ) :
    (l.map (fun t => c * f t)).sum = c * (l.map f).sum := by
  induction l with
  | nil => simp
  | cons x xs ih => simp [ih, mul_add]

/-- Shifting every entry by `-c` multiplies the sum of exponentials
by `exp (-c)`. -/
theorem sum_map_exp_sub (l : List ℝ) (c : ℝ) :
    ((l.map (fun t => t - c)).map Real.exp).sum
      = Real.exp (-c) * (l.map Real.exp).sum := by
  induction l with
  | nil => simp
  | cons x xs ih =>
    simp only [List.map_cons, List.sum_cons, ih]
    rw [sub_eq_add_neg, Real.exp_add]
    ring

/-- Doubling every entry squares each exponential. -/
theorem sum_map_exp_double (l : List ℝ) :
    ((l.map (fun t => t * 2)).map Real.exp).sum
      = ((l.map Real.exp).map (fun t => t ^ 2)).sum := by
  rw [List.map_map, List.map_map]
  have h : (Real.exp ∘ fun t => t * 2) = ((fun t => t ^ 2) ∘ Real.exp) := by
    funext t
    simp only [Function.comp_apply]
    rw [mul_two, Real.exp_add, sq]
  rw [h]

/-- Folding `max` starting from `c` over copies of `c` stays at `c`. -/
theorem foldl_max_self (c : ℝ) : ∀ n : ℕ, List.foldl max c (List.replicate n c) = c := by
  intro n
  induction n with
  | zero => simp
  | succ k ih => simpa [List.replicate_succ] using ih

/-- The maximum of a nonempty constant list is that constant. -/
theorem listMax_replicate (n : ℕ) (c : ℝ) (h : n ≠ 0) :
    listMax (List.replicate n c) = c := by
  cases n with
  | zero => exact absurd rfl h
  | succ k => simpa [List.replicate_succ, listMax] using foldl_max_self c k

/-- Zipping two constant lists of the same length is constant. -/
theorem zipWith_replicate_both (f : ℝ → ℝ → ℝ) (a b : ℝ) (n : ℕ) :
    List.zipWith f (List.replicate n a) (List.replicate n b)
      = List.replicate n (f a b) := by
  induction n with
  | zero => simp
  | succ k ih => simp [List.replicate_succ, ih]

/-- Zipping a constant list against a list of the same length is a map. -/
theorem zipWith_replicate_left_map {β γ : Type} (f : ℝ → β → γ) (c : ℝ) (l : List β) :
    List.zipWith f (List.replicate l.length c) l = l.map (f c) := by
  induction l with
  | nil => simp
  | cons x xs ih => simp [List.replicate_succ, ih]

/-- Selecting with an all-`true` mask of matching length keeps every row. -/
theorem maskSelect_all_true {α : Type} :
    ∀ (l : List α), maskSelect (List.replicate l.length true) l = l := by
  intro l
  induction l with
  | nil => simp [maskSelect]
  | cons x xs ih =>
    simpa [maskSelect, List.replicate_succ] using ih

/-- Self-normalized exponential weights of a nonempty list sum to one. -/
theorem normalized_exp_sum_eq_one (l : List ℝ) (h : l ≠ []) :
    (l.map (fun v => Real.exp (v - logsumexp l))).sum = 1 := by
  have hpos : 0 < (l.map Real.exp).sum :=
    sum_map_pos_of Real.exp l h (fun t => Real.exp_pos t)
  have h1 : l.map (fun v => Real.exp (v - logsumexp l))
      = (l.map (fun v => v - logsumexp l)).map Real.exp := by
    rw [List.map_map]; rfl
  rw [h1, sum_map_exp_sub, Real.exp_neg, logsumexp, Real.exp_log hpos]
  exact inv_mul_cancel₀ (ne_of_gt hpos)

/-- Embedding of the `Samples` dataclass of samples.py: a batch of draws
`x` with optional per-draw log-densities and the derived weighting
fields.  Fields that Python leaves as `None` are `none`; `parameters`,
`xp` and `device` (backend bookkeeping) are not modelled. -/
structure Samples where
  x : List (List ℝ)
  log_likelihood : Option (List ℝ)
  log_prior : Option (List ℝ)
  log_q : Option (List ℝ)
  log_w : Option (List ℝ)
  weights : Option (List ℝ)
  evidence : Option ℝ
  evidence_error : Option ℝ
  log_evidence : Option ℝ
  log_evidence_error : Option ℝ
  effective_sample_size : Option ℝ

/-- The divisor `n * (n - 1)` of the evidence-error estimate in
`Samples.compute_weights` (samples.py line 207); natural subtraction agrees
with Python's integer arithmetic at every sample count that can occur. -/
def evidence_error_denom (n : ℕ) : ℕ := n * (n - 1)

/-- The body of `Samples.compute_weights` (samples.py lines 197-215),
given the three log-density arrays: sets `log_w`, `log_evidence`,
`weights`, `evidence`, `evidence_error`, `log_evidence_error` and
`effective_sample_size` on the instance. -/
noncomputable def compute_weights_core (s : Samples) (ll lp lq : List ℝ) : Samples :=
  let lw := List.zipWith (fun a b => a - b) (List.zipWith (fun a b => a + b) ll lp) lq
  let n := s.x.length
  let logZ := logsumexp lw - Real.log (n : ℝ)
  let w := lw.map Real.exp
  let Z := Real.exp logZ
  let Zerr := Real.sqrt ((w.map (fun wi => (wi - Z) ^ 2)).sum / (evidence_error_denom n : ℝ))
  let sh := lw.map (fun t => t - listMax lw)
  { s with
    log_w := some lw
    weights := some w
    evidence := some Z
    evidence_error := some Zerr
    log_evidence := some logZ
    log_evidence_error := some |Zerr / Z|
    effective_sample_size :=
      some (Real.exp (logsumexp sh * 2 - logsumexp (sh.map (fun t => t * 2)))) }

/-- Embedding of the `Samples.compute_weights` method: `none` models the
`TypeError` Python raises when one of the three log-densities is absent. -/
noncomputable def Samples.compute_weights (s : Samples) : Option Samples :=
  match s.log_likelihood, s.log_prior, s.log_q with
  | some ll, some lp, some lq => some (compute_weights_core s ll lp lq)
  | _, _, _ => none

/-- Embedding of constructing a `Samples` dataclass (its `__init__`
arguments `x`, `log_likelihood`, `log_prior`, `log_q`, `log_evidence`,
`log_evidence_error`) followed by `__post_init__` (samples.py lines
172-185): when all three log-densities are present the derived fields are
computed eagerly, otherwise the five `init=False` fields are set to `None`
while `log_evidence` and `log_evidence_error` keep their passed values. -/
noncomputable def mkSamples (x : List (List ℝ)) (ll lp lq : Option (List ℝ))
    (logZ logZerr : Option ℝ) : Samples :=
  match ll, lp, lq with
  | some a, some b, some c =>
      compute_weights_core ⟨x, ll, lp, lq, none, none, none, none, logZ, logZerr, none⟩ a b c
  | _, _, _ => ⟨x, ll, lp, lq, none, none, none, none, logZ, logZerr, none⟩

/-- Embedding of the `Samples.efficiency` property (samples.py lines
187-195): `none` models the `RuntimeError` raised when the set has no
weights, otherwise ESS divided by the number of draws. -/
noncomputable def Samples.efficiency (s : Samples) : Option ℝ :=
  match s.log_w with
  | none => none
  | some _ => some (s.effective_sample_size.getD 0 / (s.x.length : ℝ))

/-- Embedding of `Samples.rejection_sample` (samples.py lines 221-233),
with the realized uniform draws `u` passed explicitly: accept draw `i`
iff `log_w[i] - max(log_w) > log u[i]` and rebuild a `Samples` from the
accepted rows of `x`, `log_likelihood` and `log_prior` only (`log_q` is
not propagated).  `none` models the `TypeError` raised when the set has
no weights or lacks the two densities. -/
noncomputable def Samples.rejection_sample (s : Samples) (u : List ℝ)
    [DecidableRel ((· < ·) : ℝ → ℝ → Prop)] : Option Samples :=
  match s.log_w, s.log_likelihood, s.log_prior with
  | some lw, some ll, some lp =>
      let log_u := u.map Real.log
      let sh := lw.map (fun t => t - listMax lw)
      let accept := List.zipWith (fun w lu => decide (lu < w)) sh log_u
      some (mkSamples (maskSelect accept s.x) (some (maskSelect accept ll))
        (some (maskSelect accept lp)) none none none)
  | _, _, _ => none

/-- An abstract uniform random generator state: asked for `n` draws it
yields a list of reals in `(0, 1)`.  Models `numpy.random.Generator` as a
source of `rng.uniform(size=n)`. -/
abbrev Urng : Type := ℕ → List ℝ

/-- Embedding of the rng plumbing of `Samples.rejection_sample` (samples.py
lines 221-226): the caller may supply a generator; when `rng is None` the
process-default generator `np.random.default_rng()` is used instead. -/
noncomputable def rejection_sample_rng (s : Samples) (rng : Option Urng)
    (globalDefault : Urng) [DecidableRel ((· < ·) : ℝ → ℝ → Prop)] : Option Samples :=
  let r := rng.getD globalDefault
  s.rejection_sample (r s.x.length)

/-- Embedding of the `SMCSamples` dataclass of samples.py: a sample set
annotated with a tempering temperature `beta` and a tracked
`log_evidence`. -/
structure SMCSamples where
  x : List (List ℝ)
  log_likelihood : Option (List ℝ)
  log_prior : Option (List ℝ)
  log_q : Option (List ℝ)
  beta : Option ℝ
  log_evidence : Option ℝ
  /-- Modelled from the spec: `to_standard_samples` reads
  `self.log_evidence_error`, which no code under src/ assigns; per the spec
  it is the externally tracked cumulative evidence error set on the
  instance by the SMC driver (not among the provided sources). -/
  log_evidence_error : Option ℝ

/-- Embedding of `SMCSamples.log_p_t` (samples.py lines 320-322): the
geometric interpolation `(1 - beta) * log_q + beta * (log_likelihood +
log_prior)`. -/
noncomputable def SMCSamples.log_p_t (s : SMCSamples) (beta : ℝ) : Option (List ℝ) :=
  match s.log_likelihood, s.log_prior, s.log_q with
  | some ll, some lp, some lq =>
      some (List.zipWith (fun q pT => (1 - beta) * q + beta * pT) lq
        (List.zipWith (fun a b => a + b) ll lp))
  | _, _, _ => none

/-- Embedding of `SMCSamples.unnormalized_log_weights` (samples.py lines
324-327). -/
noncomputable def SMCSamples.unnormalized_log_weights (s : SMCSamples) (beta : ℝ) :
    Option (List ℝ) :=
  match s.beta, s.log_likelihood, s.log_prior, s.log_q with
  | some b0, some ll, some lp, some lq =>
      some (List.zipWith (fun q pT => (b0 - beta) * q + (beta - b0) * pT) lq
        (List.zipWith (fun a b => a + b) ll lp))
  | _, _, _, _ => none

/-- Embedding of `SMCSamples.log_evidence_ratio` (samples.py lines
329-331). -/
noncomputable def SMCSamples.log_evidence_ratio (s : SMCSamples) (beta : ℝ) : Option ℝ :=
  (s.unnormalized_log_weights beta).map
    (fun lw => logsumexp lw - Real.log (s.x.length : ℝ))

/-- Embedding of `SMCSamples.log_weights` (samples.py lines 333-338) in
exact real arithmetic, where no NaN can arise: the unnormalized weights
plus the scalar evidence ratio.  (`log_weights_f` below models the NaN
check of line 335.) -/
noncomputable def SMCSamples.log_weights (s : SMCSamples) (beta : ℝ) : Option (List ℝ) :=
  (s.unnormalized_log_weights beta).map
    (fun lw => lw.map (fun v => v + (logsumexp lw - Real.log (s.x.length : ℝ))))

/-- Embedding of `SMCSamples.resample` (samples.py lines 340-355).  The
categorical draw `np.random.choice(len(x), size=n, replace=True, p=w)` is
abstracted as the function `choice` (population size, number of draws and
probability vector to drawn indices); it stands for the process-global
numpy RNG, since the method takes no generator argument.  The `Bool` in
the result records whether the same-beta warning was logged. -/
noncomputable def SMCSamples.resample (s : SMCSamples) (beta : ℝ)
    (n_samples : Option ℕ) (choice : ℕ → ℕ → List ℝ → List ℕ)
    [Decidable (s.beta = some beta)] : Option (SMCSamples × Bool) :=
  if s.beta = some beta then some ((s, true))
  else
    let n := n_samples.getD s.x.length
    match s.log_weights beta with
    | none => none
    | some lw =>
        let w := lw.map (fun v => Real.exp (v - logsumexp lw))
        let idx := choice s.x.length n w
        match s.log_likelihood, s.log_prior, s.log_q with
        | some ll, some lp, some lq =>
            some ((⟨idx.map (fun i => s.x.getD i []),
                    some (idx.map (fun i => ll.getD i 0)),
                    some (idx.map (fun i => lp.getD i 0)),
                    some (idx.map (fun i => lq.getD i 0)),
                    some beta, none, none⟩, false))
        | _, _, _ => none

/-- Embedding of `SMCSamples.to_standard_samples` (samples.py lines
363-373): a plain `Samples` built from `x`, `log_likelihood` and
`log_prior` (no `log_q`), carrying over `log_evidence` and
`log_evidence_error`. -/
noncomputable def SMCSamples.to_standard_samples (s : SMCSamples) : Samples :=
  mkSamples s.x s.log_likelihood s.log_prior none s.log_evidence s.log_evidence_error

/-- A floating-point scalar that may be NaN: `none` is NaN, `some r` a
real value.  Infinities are not modelled. -/
abbrev FVal : Type := Option ℝ

/-- NaN-propagating addition. -/
def fadd : FVal → FVal → FVal
  | some a, some b => some (a + b)
  | _, _ => none

/-- NaN-propagating multiplication by a real scalar. -/
def fscale (c : ℝ) : FVal → FVal
  | some a => some (c * a)
  | none => none

/-- NaN-aware embedding of `SMCSamples.unnormalized_log_weights`
(samples.py lines 324-327), over arrays whose entries may be NaN. -/
def unnormalized_log_weights_f (b0 beta : ℝ) (ll lp lq : List FVal) : List FVal :=
  List.zipWith (fun q pT => fadd (fscale (b0 - beta) q) (fscale (beta - b0) pT)) lq
    (List.zipWith fadd ll lp)

/-- NaN-aware embedding of `SMCSamples.log_weights` (samples.py lines
333-338): compute the unnormalized log-weights, raise `ValueError`
carrying the offending `beta` if any entry is NaN (`xp.isnan(log_w).any()`),
otherwise add the scalar `logsumexp(log_w) - log(n)` to every entry.
`n` is `len(self.x)` and `b0` the current temperature. -/
noncomputable def log_weights_f (b0 beta : ℝ) (ll lp lq : List FVal) (n : ℕ) :
    Except ℝ (List FVal) :=
  let lw := unnormalized_log_weights_f b0 beta ll lp lq
  if lw.any (fun v => v.isNone) then Except.error beta
  else
    Except.ok (lw.map (fun v =>
      fadd v (some (logsumexp (lw.map (fun t => t.getD 0)) - Real.log (n : ℝ)))))

/-- The collaborators `Emcee.sample` calls out to (mcmc.py lines 26-77),
each treated as an opaque deterministic function: the proposal flow's
`sample` and `sample_and_log_prob`, the prior and likelihood evaluators,
the preconditioning transform's `fit`, the composite of the ensemble
kernel's `run_mcmc` and `get_chain(flat=True, discard=discard)` (from a
starting population, a step count and a discard count to the flattened
chain), and the inverse preconditioning transform (first component). -/
structure EmceeEnv where
  flow_sample : ℕ → List (List ℝ)
  sample_and_log_prob : ℕ → List (List ℝ) × List ℝ
  log_prior_fn : List (List ℝ) → List ℝ
  log_likelihood_fn : List (List ℝ) → List ℝ
  fit : List (List ℝ) → List (List ℝ)
  run_chain : List (List ℝ) → ℕ → ℕ → List (List ℝ)
  inverse : List (List ℝ) → List (List ℝ)

/-- Python's `nwalkers or n_samples` (mcmc.py line 39): `None` and `0`
are both falsy, so either yields the default. -/
def orDefault (k : Option ℕ) (d : ℕ) : ℕ :=
  match k with
  | some (n + 1) => n + 1
  | _ => d

/-- Embedding of `Emcee.sample` (mcmc.py lines 26-77): run the ensemble
kernel from a proposal draw of `nwalkers` points, inverse-transform the
flattened chain into `x`; draw an independent fresh batch of `n_samples`
from the proposal, weight it (§4.1) to obtain the evidence estimate; and
return the chain samples with that `log_evidence`/`log_evidence_error`
attached. -/
noncomputable def emcee_sample (env : EmceeEnv) (n_samples : ℕ) (nwalkers : Option ℕ)
    (nsteps discard : ℕ) : Samples :=
  let nw := orDefault nwalkers n_samples
  let p0 := env.flow_sample nw
  let z0 := env.fit p0
  let x := env.inverse (env.run_chain z0 nsteps discard)
  let xe := (env.sample_and_log_prob n_samples).1
  let lqe := (env.sample_and_log_prob n_samples).2
  let se0 : Samples :=
    { mkSamples xe none none (some lqe) none none with
      log_prior := some (env.log_prior_fn xe)
      log_likelihood := some (env.log_likelihood_fn xe) }
  let se := (se0.compute_weights).getD se0
  let sm0 := mkSamples x none none none none none
  { sm0 with
    log_prior := some (env.log_prior_fn x)
    log_likelihood := some (env.log_likelihood_fn x)
    log_evidence := se.log_evidence
    log_evidence_error := se.log_evidence_error }

/-- The claimed invariant of the spec (§3): the seven derived weighting
fields of a `Samples` are all present or all absent. -/
def weightedStateInvariant (s : Samples) : Prop :=
  (s.log_w.isSome = true ∧ s.weights.isSome = true ∧ s.evidence.isSome = true ∧
   s.evidence_error.isSome = true ∧ s.log_evidence.isSome = true ∧
   s.log_evidence_error.isSome = true ∧ s.effective_sample_size.isSome = true) ∨
  (s.log_w = none ∧ s.weights = none ∧ s.evidence = none ∧
   s.evidence_error = none ∧ s.log_evidence = none ∧
   s.log_evidence_error = none ∧ s.effective_sample_size = none)

/-- The invariant the code actually maintains: the five fields computed
only by `compute_weights` (all but `log_evidence` and
`log_evidence_error`, which the constructor, `to_standard_samples` and
the drivers can set independently) are all present or all absent. -/
def coreWeightedInvariant (s : Samples) : Prop :=
  (s.log_w.isSome = true ∧ s.weights.isSome = true ∧ s.evidence.isSome = true ∧
   s.evidence_error.isSome = true ∧ s.effective_sample_size.isSome = true) ∨
  (s.log_w = none ∧ s.weights = none ∧ s.evidence = none ∧
   s.evidence_error = none ∧ s.effective_sample_size = none)

/-- The conclusion of claim C1, for a set built from draws `x` and three
log-density vectors of length `N`: the exact values `compute_weights`
establishes for every derived field, elementwise weight equations, and
nonnegativity of both error fields. -/
def C1Post (x : List (List ℝ)) (ll lp lq : List ℝ) (N : ℕ) : Prop :=
  let s := mkSamples x (some ll) (some lp) (some lq) none none
  let lw := List.zipWith (fun a b => a - b) (List.zipWith (fun a b => a + b) ll lp) lq
  let logZ := logsumexp lw - Real.log (N : ℝ)
  let Z := Real.exp logZ
  let w := lw.map Real.exp
  let Zerr := Real.sqrt ((w.map (fun wi => (wi - Z) ^ 2)).sum / ((N * (N - 1) : ℕ) : ℝ))
  s.log_w = some lw ∧
  lw.length = N ∧
  (∀ i, i < N → lw.getD i 0 = ll.getD i 0 + lp.getD i 0 - lq.getD i 0) ∧
  s.log_evidence = some logZ ∧
  s.weights = some w ∧
  (∀ i, i < N → w.getD i 0 = Real.exp (lw.getD i 0)) ∧
  s.evidence = some Z ∧
  s.evidence_error = some Zerr ∧
  s.log_evidence_error = some |Zerr / Z| ∧
  0 ≤ Zerr ∧ 0 ≤ |Zerr / Z|

/-- Claim C1: for every sample set with `log_likelihood`, `log_prior` and
`log_q` all present and of equal length `N`, `compute_weights` establishes
`log_w[i] = log_likelihood[i] + log_prior[i] - log_q[i]`,
`log_evidence = logsumexp(log_w) - log N`, `weights[i] = exp(log_w[i])`,
`evidence = exp(log_evidence)`,
`evidence_error = sqrt(Σ_i (weights[i] - evidence)^2 / (N*(N-1)))`,
`log_evidence_error = |evidence_error / evidence|`, and both error fields
are nonnegative. -/
theorem c1_compute_weights_exact (x : List (List ℝ)) (ll lp lq : List ℝ) (N : ℕ)
    (hx : x.length = N) (hll : ll.length = N) (hlp : lp.length = N)
    (hlq : lq.length = N) : C1Post x ll lp lq N := by
  have hlwlen : (List.zipWith (fun a b => a - b)
      (List.zipWith (fun a b => a + b) ll lp) lq).length = N := by
    simp [List.length_zipWith, hll, hlp, hlq]
  refine ⟨?_, hlwlen, ?_, ?_, ?_, ?_, ?_, ?_, ?_, ?_, ?_⟩
  · simp [mkSamples, compute_weights_core]
  · intro i hi
    rw [getD_zipWith_real _ _ _ _ (by simp [List.length_zipWith, hll, hlp]; omega)
        (by omega : i < lq.length),
      getD_zipWith_real _ _ _ _ (by omega : i < ll.length) (by omega : i < lp.length)]
  · simp [mkSamples, compute_weights_core, hx]
  · simp [mkSamples, compute_weights_core]
  · intro i hi
    exact getD_map_real Real.exp _ i (by omega : i < _)
  · simp [mkSamples, compute_weights_core, hx]
  · simp [mkSamples, compute_weights_core, evidence_error_denom, hx]
  · simp [mkSamples, compute_weights_core, evidence_error_denom, hx]
  · exact Real.sqrt_nonneg _
  · exact abs_nonneg _

/-- Witness for C1 at five concrete equal-weight draws reduced to two. -/
theorem c1_compute_weights_exact_witness : C1Post [[0], [0]] [0, 0] [0, 0] [0, 0] 2 :=
  c1_compute_weights_exact [[0], [0]] [0, 0] [0, 0] [0, 0] 2 rfl rfl rfl rfl

/-- Kish's identity for the shifted-log-domain effective sample size: for
a nonempty weight vector, `exp(logsumexp(sh) * 2 - logsumexp(sh * 2))`
with `sh = log_w - max(log_w)` equals `(Σ w)^2 / Σ w^2`. -/
theorem ess_shift_eq_kish (lw : List ℝ) (h : lw ≠ []) :
    Real.exp (logsumexp (lw.map (fun t => t - listMax lw)) * 2
        - logsumexp ((lw.map (fun t => t - listMax lw)).map (fun t => t * 2)))
      = (lw.map Real.exp).sum ^ 2 / ((lw.map Real.exp).map (fun t => t ^ 2)).sum := by
  have hE : Real.exp (-listMax lw) ≠ 0 := Real.exp_ne_zero _
  have hWpos : 0 < (lw.map Real.exp).sum :=
    sum_map_pos_of Real.exp lw h (fun t => Real.exp_pos t)
  have hQ : ((lw.map (fun t => t - listMax lw)).map (fun t => t * 2)).map Real.exp
      = lw.map (fun t => Real.exp (-listMax lw) ^ 2 * Real.exp t ^ 2) := by
    rw [List.map_map, List.map_map]
    congr 1
    funext t
    simp only [Function.comp_apply]
    rw [sub_eq_add_neg, mul_two, Real.exp_add, Real.exp_add]
    ring
  have hQsum : (((lw.map (fun t => t - listMax lw)).map (fun t => t * 2)).map Real.exp).sum
      = Real.exp (-listMax lw) ^ 2 * (lw.map (fun t => Real.exp t ^ 2)).sum := by
    rw [hQ, sum_map_mul_left_real]
  have hQpos : 0 < (lw.map (fun t => Real.exp t ^ 2)).sum :=
    sum_map_pos_of _ lw h (fun t => pow_pos (Real.exp_pos t) 2)
  have hS1 : ((lw.map (fun t => t - listMax lw)).map Real.exp).sum
      = Real.exp (-listMax lw) * (lw.map Real.exp).sum := sum_map_exp_sub lw (listMax lw)
  have hS1pos : 0 < ((lw.map (fun t => t - listMax lw)).map Real.exp).sum := by
    rw [hS1]
    exact mul_pos (Real.exp_pos _) hWpos
  have hS2pos : 0 < (((lw.map (fun t => t - listMax lw)).map (fun t => t * 2)).map Real.exp).sum := by
    rw [hQsum]
    exact mul_pos (pow_pos (Real.exp_pos _) 2) hQpos
  rw [logsumexp, logsumexp, Real.exp_sub, mul_two, Real.exp_add, ← sq,
    Real.exp_log hS1pos, Real.exp_log hS2pos, hS1, hQsum, mul_pow,
    mul_div_mul_left _ _ (pow_ne_zero 2 hE), List.map_map]
  rfl

/-- The conclusion of claim C2: the stored effective sample size equals
the shifted-log-domain formula, equals Kish's `(Σ w)^2 / Σ w^2`, and for
all-equal log-densities with more than one draw it is exactly `N`, with
efficiency exactly `1`. -/
def C2Post (x : List (List ℝ)) (ll lp lq : List ℝ) (N : ℕ) : Prop :=
  let s := mkSamples x (some ll) (some lp) (some lq) none none
  let lw := List.zipWith (fun a b => a - b) (List.zipWith (fun a b => a + b) ll lp) lq
  let sh := lw.map (fun t => t - listMax lw)
  let w := lw.map Real.exp
  s.effective_sample_size
      = some (Real.exp (2 * logsumexp sh - logsumexp (sh.map (fun t => 2 * t)))) ∧
  s.effective_sample_size = some (w.sum ^ 2 / (w.map (fun t => t ^ 2)).sum) ∧
  (∀ a b c, ll = List.replicate N a → lp = List.replicate N b → lq = List.replicate N c →
    1 < N → s.effective_sample_size = some (N : ℝ) ∧ s.efficiency = some 1)

/-- Claim C2: `compute_weights` stores
`ESS = exp(2 logsumexp(sh) - logsumexp(2 sh))` with
`sh = log_w - max(log_w)`, which equals Kish's `(Σ w)^2 / Σ w^2`; for
`N > 1` draws with identical `log_likelihood`, `log_prior` and `log_q`
across draws it equals `N` exactly, and the efficiency equals `1`. -/
theorem c2_effective_sample_size (x : List (List ℝ)) (ll lp lq : List ℝ) (N : ℕ)
    (hx : x.length = N) (hll : ll.length = N) (hlp : lp.length = N)
    (hlq : lq.length = N) (hN : 1 ≤ N) : C2Post x ll lp lq N := by
  have hlwlen : (List.zipWith (fun a b => a - b)
      (List.zipWith (fun a b => a + b) ll lp) lq).length = N := by
    simp [List.length_zipWith, hll, hlp, hlq]
  have hne : (List.zipWith (fun a b => a - b)
      (List.zipWith (fun a b => a + b) ll lp) lq) ≠ [] := by
    intro hc
    rw [hc] at hlwlen
    simp at hlwlen
    omega
  have hfield : (mkSamples x (some ll) (some lp) (some lq) none none).effective_sample_size
      = some (Real.exp (logsumexp ((List.zipWith (fun a b => a - b)
          (List.zipWith (fun a b => a + b) ll lp) lq).map
            (fun t => t - listMax (List.zipWith (fun a b => a - b)
              (List.zipWith (fun a b => a + b) ll lp) lq))) * 2
        - logsumexp (((List.zipWith (fun a b => a - b)
            (List.zipWith (fun a b => a + b) ll lp) lq).map
              (fun t => t - listMax (List.zipWith (fun a b => a - b)
                (List.zipWith (fun a b => a + b) ll lp) lq))).map (fun t => t * 2)))) := by
    simp [mkSamples, compute_weights_core]
  refine ⟨?_, ?_, ?_⟩
  · rw [hfield]
    have h2 : ∀ l : List ℝ, l.map (fun t => t * 2) = l.map (fun t => 2 * t) := by
      intro l
      congr 1
      funext t
      exact mul_comm t 2
    rw [h2, mul_comm]
  · rw [hfield, ess_shift_eq_kish _ hne]
  · intro a b c hla hlb hlc hN1
    have hlw : List.zipWith (fun t u => t - u)
        (List.zipWith (fun t u => t + u) ll lp) lq = List.replicate N (a + b - c) := by
      rw [hla, hlb, hlc, zipWith_replicate_both, zipWith_replicate_both]
    have hNpos : (0 : ℝ) < (N : ℝ) := by
      exact_mod_cast Nat.pos_of_ne_zero (by omega)
    have hEpos : (0 : ℝ) < Real.exp (a + b - c) := Real.exp_pos _
    have hkish : ((List.replicate N (a + b - c)).map Real.exp).sum ^ 2
        / (((List.replicate N (a + b - c)).map Real.exp).map (fun t => t ^ 2)).sum
          = (N : ℝ) := by
      rw [List.map_replicate, List.map_replicate, List.sum_replicate, List.sum_replicate,
        nsmul_eq_mul, nsmul_eq_mul]
      have hEne : Real.exp (a + b - c) ^ 2 ≠ 0 := by positivity
      have hNne : (N : ℝ) ≠ 0 := ne_of_gt hNpos
      rw [mul_pow]
      field_simp
      ring
    have hessN : (mkSamples x (some ll) (some lp) (some lq) none none).effective_sample_size
        = some (N : ℝ) := by
      rw [hfield, hlw, ess_shift_eq_kish _ (by
        intro hc
        have := congrArg List.length hc
        simp at this
        omega), hkish]
    refine ⟨hessN, ?_⟩
    have hlwfield : (mkSamples x (some ll) (some lp) (some lq) none none).log_w
        = some (List.zipWith (fun t u => t - u)
            (List.zipWith (fun t u => t + u) ll lp) lq) := by
      simp [mkSamples, compute_weights_core]
    unfold Samples.efficiency
    rw [hlwfield]
    simp only [hessN, Option.getD_some]
    have hxlen : ((mkSamples x (some ll) (some lp) (some lq) none none).x.length : ℝ)
        = (N : ℝ) := by
      simp [mkSamples, compute_weights_core, hx]
    rw [hxlen, div_self (ne_of_gt hNpos)]

/-- Witness for C2 at two equal-weight draws: ESS is 2 and efficiency 1. -/
theorem c2_effective_sample_size_witness : C2Post [[0], [0]] [0, 0] [0, 0] [0, 0] 2 :=
  c2_effective_sample_size [[0], [0]] [0, 0] [0, 0] [0, 0] 2 rfl rfl rfl rfl
    (by omega)

/-- The conclusion of claim C3 for a tempered set at temperature `b0`
with density vectors of length `N`, retargeted to `bt`. -/
def C3Post (x : List (List ℝ)) (ll lp lq : List ℝ) (b0 bt : ℝ) (N : ℕ) : Prop :=
  let s : SMCSamples := ⟨x, some ll, some lp, some lq, some b0, none, none⟩
  (s.unnormalized_log_weights bt).isSome = true ∧
  (∀ ulw pt1 pt0, s.unnormalized_log_weights bt = some ulw →
    s.log_p_t bt = some pt1 → s.log_p_t b0 = some pt0 →
    ulw.length = N ∧
    (∀ i, i < N →
      ulw.getD i 0
          = (b0 - bt) * lq.getD i 0 + (bt - b0) * (ll.getD i 0 + lp.getD i 0) ∧
      ulw.getD i 0 = pt1.getD i 0 - pt0.getD i 0) ∧
    (bt = b0 → ∀ i, i < N → ulw.getD i 0 = 0))

/-- Claim C3: `unnormalized_log_weights(beta_target)[i] = (beta_current -
beta_target) * log_q[i] + (beta_target - beta_current) * (log_likelihood[i]
+ log_prior[i])`, which equals `log_p_t(beta_target)[i] -
log_p_t(beta_current)[i]` under the geometric interpolation, and is
exactly `0` for every draw when `beta_target = beta_current`. -/
theorem c3_tempered_weight_algebra (x : List (List ℝ)) (ll lp lq : List ℝ)
    (b0 bt : ℝ) (N : ℕ) (hll : ll.length = N) (hlp : lp.length = N)
    (hlq : lq.length = N) : C3Post x ll lp lq b0 bt N := by
  refine ⟨by simp [SMCSamples.unnormalized_log_weights], ?_⟩
  intro ulw pt1 pt0 h1 h2 h3
  simp only [SMCSamples.unnormalized_log_weights, Option.some.injEq] at h1
  simp only [SMCSamples.log_p_t, Option.some.injEq] at h2 h3
  subst h1 h2 h3
  have hsum : (List.zipWith (fun a b => a + b) ll lp).length = N := by
    simp [List.length_zipWith, hll, hlp]
  refine ⟨by simp [List.length_zipWith, hlq, hsum], ?_, ?_⟩
  · intro i hi
    have hA := getD_zipWith_real (fun a b => a + b) ll lp i (by omega) (by omega)
    have hU := getD_zipWith_real (fun q pT => (b0 - bt) * q + (bt - b0) * pT) lq
      (List.zipWith (fun a b => a + b) ll lp) i (by omega) (by omega)
    have hP1 := getD_zipWith_real (fun q pT => (1 - bt) * q + bt * pT) lq
      (List.zipWith (fun a b => a + b) ll lp) i (by omega) (by omega)
    have hP0 := getD_zipWith_real (fun q pT => (1 - b0) * q + b0 * pT) lq
      (List.zipWith (fun a b => a + b) ll lp) i (by omega) (by omega)
    rw [hU, hP1, hP0, hA]
    exact ⟨rfl, by ring⟩
  · intro hbeq i hi
    have hA := getD_zipWith_real (fun a b => a + b) ll lp i (by omega) (by omega)
    have hU := getD_zipWith_real (fun q pT => (b0 - bt) * q + (bt - b0) * pT) lq
      (List.zipWith (fun a b => a + b) ll lp) i (by omega) (by omega)
    rw [hU, hA, hbeq]
    ring

/-- Witness for C3 at a one-draw tempered set moved from temperature 0
to 1 and back to itself. -/
theorem c3_tempered_weight_algebra_witness : C3Post [[0]] [0] [0] [0] 0 1 1 :=
  c3_tempered_weight_algebra [[0]] [0] [0] [0] 0 1 1 rfl rfl rfl

/-- Claim C10: the evidence-error divisor `n * (n - 1)` is nonzero for
every sample count `n ≥ 2`, is zero for a single draw, and
`compute_weights` performs the division by it unguardedly, for every
sample count, including `n = 1`. -/
theorem c10_evidence_error_divisor :
    (∀ n : ℕ, 2 ≤ n → ((evidence_error_denom n : ℕ) : ℝ) ≠ 0) ∧
    evidence_error_denom 1 = 0 ∧
    (∀ (x : List (List ℝ)) (ll lp lq : List ℝ), ∃ v : ℝ,
      (mkSamples x (some ll) (some lp) (some lq) none none).evidence_error
        = some (Real.sqrt (v / ((evidence_error_denom x.length : ℕ) : ℝ)))) := by
  refine ⟨?_, rfl, ?_⟩
  · intro n hn
    have h1 : evidence_error_denom n ≠ 0 := by
      unfold evidence_error_denom
      exact Nat.mul_ne_zero (by omega) (by omega)
    exact_mod_cast h1
  · intro x ll lp lq
    refine ⟨(((List.zipWith (fun a b => a - b)
        (List.zipWith (fun a b => a + b) ll lp) lq).map Real.exp).map (fun wi =>
          (wi - Real.exp (logsumexp (List.zipWith (fun a b => a - b)
            (List.zipWith (fun a b => a + b) ll lp) lq)
              - Real.log (x.length : ℝ))) ^ 2)).sum, ?_⟩
    simp [mkSamples, compute_weights_core]

/-- Claim C5: the NaN-aware `log_weights` computes the unnormalized
log-weights, fails with an error carrying the offending `beta_target`
when any of them is NaN (returning no result), and otherwise adds the
scalar `logsumexp(log_w) - log(N)` to every element of the vector it
returns. -/
theorem c5_log_weights_nan_error (b0 bt : ℝ) (ll lp lq : List FVal) (n : ℕ) :
    ((none : FVal) ∈ unnormalized_log_weights_f b0 bt ll lp lq →
      log_weights_f b0 bt ll lp lq n = Except.error bt) ∧
    ((none : FVal) ∉ unnormalized_log_weights_f b0 bt ll lp lq →
      log_weights_f b0 bt ll lp lq n
        = Except.ok ((unnormalized_log_weights_f b0 bt ll lp lq).map (fun v =>
            fadd v (some (logsumexp ((unnormalized_log_weights_f b0 bt ll lp lq).map
              (fun t => t.getD 0)) - Real.log (n : ℝ)))))) := by
  constructor
  · intro h
    unfold log_weights_f
    rw [if_pos]
    exact List.any_eq_true.mpr ⟨none, h, rfl⟩
  · intro h
    unfold log_weights_f
    rw [if_neg]
    intro hc
    rcases List.any_eq_true.mp hc with ⟨v, hv, hvn⟩
    rcases v with _ | r
    · exact h hv
    · simp at hvn

/-- Every construction of a `Samples` maintains the five
`compute_weights`-computed fields together: all present or all absent. -/
theorem mkSamples_core_invariant (x : List (List ℝ)) (ll lp lq : Option (List ℝ))
    (z ze : Option ℝ) : coreWeightedInvariant (mkSamples x ll lp lq z ze) := by
  rcases ll with _ | a <;> rcases lp with _ | b <;> rcases lq with _ | c <;>
    simp [mkSamples, compute_weights_core, coreWeightedInvariant]

/-- Counterexample to claim C7: `to_standard_samples` on a tempered set
carrying an evidence estimate yields a `Samples` whose `log_evidence` and
`log_evidence_error` are present while `log_w`, `weights`, `evidence`,
`evidence_error` and `effective_sample_size` are all absent — a partially
weighted state, violating the claimed all-or-nothing invariant over the
seven derived fields. -/
theorem c7_counterexample :
    ¬ weightedStateInvariant (SMCSamples.to_standard_samples
      ⟨[[0]], some [0], some [0], some [0], some 1, some 0, some 0⟩) := by
  simp [SMCSamples.to_standard_samples, mkSamples, weightedStateInvariant]

/-- Claim C7 as amended: the five fields that only `compute_weights` sets
(`log_w`, `weights`, `evidence`, `evidence_error`,
`effective_sample_size`) are all present or all absent under every
construction path — the dataclass constructor, `compute_weights`,
`rejection_sample`, `to_standard_samples` and the ensemble driver —
while `log_evidence` and `log_evidence_error` can additionally be present
on their own (they are constructor arguments carried through
`to_standard_samples` and attached by the ensemble driver). -/
theorem c7_core_weighted_invariant :
    (∀ (x : List (List ℝ)) (ll lp lq : Option (List ℝ)) (z ze : Option ℝ),
      coreWeightedInvariant (mkSamples x ll lp lq z ze)) ∧
    (∀ s : SMCSamples, coreWeightedInvariant s.to_standard_samples) ∧
    (∀ s t : Samples, s.compute_weights = some t → coreWeightedInvariant t) ∧
    (∀ (s : Samples) (u : List ℝ) (inst : DecidableRel ((· < ·) : ℝ → ℝ → Prop))
      (t : Samples), @Samples.rejection_sample s u inst = some t →
        coreWeightedInvariant t) ∧
    (∀ (env : EmceeEnv) (n : ℕ) (nw : Option ℕ) (ns d : ℕ),
      coreWeightedInvariant (emcee_sample env n nw ns d)) := by
  refine ⟨mkSamples_core_invariant, ?_, ?_, ?_, ?_⟩
  · intro s
    exact mkSamples_core_invariant s.x s.log_likelihood s.log_prior none
      s.log_evidence s.log_evidence_error
  · intro s t h
    rcases hll : s.log_likelihood with _ | a <;>
      rcases hlp : s.log_prior with _ | b <;>
      rcases hlq : s.log_q with _ | c <;>
      simp [Samples.compute_weights, hll, hlp, hlq] at h
    rw [← h]
    simp [compute_weights_core, coreWeightedInvariant]
  · intro s u inst t h
    rcases hlw : s.log_w with _ | lw <;>
      rcases hll : s.log_likelihood with _ | a <;>
      rcases hlp : s.log_prior with _ | b <;>
      simp [Samples.rejection_sample, hlw, hll, hlp] at h
    rw [← h]
    exact mkSamples_core_invariant _ _ _ _ _ _
  · intro env n nw ns d
    simp only [emcee_sample]
    have h := mkSamples_core_invariant
      (env.inverse (env.run_chain (env.fit (env.flow_sample (orDefault nw n))) ns d))
      none none none none none
    rcases h with h | h
    · rcases h with ⟨h1, _⟩
      simp [mkSamples] at h1
    · simp [coreWeightedInvariant, mkSamples]

/-- Elementwise access through `zipWith` at an in-range index, for
arbitrary element types and defaults. -/
theorem getD_zipWith_gen {α β γ : Type} (f : α → β → γ) (d1 : α) (d2 : β) (d3 : γ) :
    ∀ (a : List α) (b : List β) (i : ℕ), i < a.length → i < b.length →
      (List.zipWith f a b).getD i d3 = f (a.getD i d1) (b.getD i d2) := by
  intro a
  induction a with
  | nil => intro b i h _; simp at h
  | cons x xs ih =>
    intro b i h1 h2
    cases b with
    | nil => simp at h2
    | cons y ys =>
      cases i with
      | zero => simp
      | succ j =>
        simp only [List.zipWith_cons_cons, List.getD_cons_succ]
        exact ih ys j (by simpa using h1) (by simpa using h2)

/-- Elementwise access through `map` at an in-range index, for arbitrary
element types and defaults. -/
theorem getD_map_gen {α β : Type} (f : α → β) (d1 : α) (d2 : β) :
    ∀ (l : List α) (i : ℕ), i < l.length → (l.map f).getD i d2 = f (l.getD i d1) := by
  intro l
  induction l with
  | nil => intro i h; simp at h
  | cons x xs ih =>
    intro i h
    cases i with
    | zero => simp
    | succ j =>
      simp only [List.map_cons, List.getD_cons_succ]
      exact ih j (by simpa using h)

/-- A map whose values are all `true` is a constant `true` list. -/
theorem map_eq_replicate_true {α : Type} (g : α → Bool) :
    ∀ l : List α, (∀ v ∈ l, g v = true) → l.map g = List.replicate l.length true := by
  intro l
  induction l with
  | nil => intro _; simp
  | cons x xs ih =>
    intro h
    simp only [List.map_cons, List.length_cons, List.replicate_succ]
    rw [h x (List.mem_cons_self x xs), ih (fun v hv => h v (List.mem_cons_of_mem x hv))]

/-- The conclusion of claim C6 for a weighted set of `N` draws and
realized uniforms `u`: the exact rejection-sampling output, the
per-draw acceptance criterion, the absence of weights on the output, and
the all-weights-equal case where every draw is accepted. -/
def C6Post [inst : DecidableRel ((· < ·) : ℝ → ℝ → Prop)] (x : List (List ℝ))
    (ll lp lq u : List ℝ) (N : ℕ) : Prop :=
  let s := mkSamples x (some ll) (some lp) (some lq) none none
  let lw := List.zipWith (fun a b => a - b) (List.zipWith (fun a b => a + b) ll lp) lq
  let sh := lw.map (fun t => t - listMax lw)
  let accept := List.zipWith (fun w lu => decide (lu < w)) sh (u.map Real.log)
  s.rejection_sample u
      = some (mkSamples (maskSelect accept x) (some (maskSelect accept ll))
          (some (maskSelect accept lp)) none none none) ∧
  (∀ i, i < N → i < u.length →
    (accept.getD i false = true ↔ lw.getD i 0 - listMax lw > Real.log (u.getD i 0))) ∧
  (∀ t, s.rejection_sample u = some t → t.log_q = none ∧ t.log_w = none) ∧
  (∀ a b c, ll = List.replicate N a → lp = List.replicate N b →
    lq = List.replicate N c → u.length = N → (∀ v ∈ u, 0 < v ∧ v < 1) →
    s.rejection_sample u = some (mkSamples x (some ll) (some lp) none none none) ∧
    (∀ t, s.rejection_sample u = some t → t.x.length = x.length))

/-- Claim C6: rejection sampling accepts draw `i` iff
`log_w[i] - max(log_w) > log u[i]`, returns a new set holding exactly the
accepted rows of `x`, `log_likelihood` and `log_prior` with no `log_q`
(hence no weights), and when all weights are equal and every `u[i]` lies
in `(0, 1)` it accepts every draw, so the output size equals the input
size. -/
theorem c6_rejection_sample_exact [inst : DecidableRel ((· < ·) : ℝ → ℝ → Prop)]
    (x : List (List ℝ)) (ll lp lq u : List ℝ) (N : ℕ) (hx : x.length = N)
    (hll : ll.length = N) (hlp : lp.length = N) (hlq : lq.length = N) :
    C6Post x ll lp lq u N := by
  have hlwlen : (List.zipWith (fun a b => a - b)
      (List.zipWith (fun a b => a + b) ll lp) lq).length = N := by
    simp [List.length_zipWith, hll, hlp, hlq]
  have hmain : (mkSamples x (some ll) (some lp) (some lq) none none).rejection_sample u
      = some (mkSamples
          (maskSelect (List.zipWith (fun w lu => decide (lu < w))
            ((List.zipWith (fun a b => a - b) (List.zipWith (fun a b => a + b) ll lp) lq).map
              (fun t => t - listMax (List.zipWith (fun a b => a - b)
                (List.zipWith (fun a b => a + b) ll lp) lq))) (u.map Real.log)) x)
          (some (maskSelect (List.zipWith (fun w lu => decide (lu < w))
            ((List.zipWith (fun a b => a - b) (List.zipWith (fun a b => a + b) ll lp) lq).map
              (fun t => t - listMax (List.zipWith (fun a b => a - b)
                (List.zipWith (fun a b => a + b) ll lp) lq))) (u.map Real.log)) ll))
          (some (maskSelect (List.zipWith (fun w lu => decide (lu < w))
            ((List.zipWith (fun a b => a - b) (List.zipWith (fun a b => a + b) ll lp) lq).map
              (fun t => t - listMax (List.zipWith (fun a b => a - b)
                (List.zipWith (fun a b => a + b) ll lp) lq))) (u.map Real.log)) lp))
          none none none) := by
    simp [mkSamples, compute_weights_core, Samples.rejection_sample]
  refine ⟨hmain, ?_, ?_, ?_⟩
  · intro i hiN hiu
    have hsh := getD_map_real (fun t => t - listMax (List.zipWith (fun a b => a - b)
      (List.zipWith (fun a b => a + b) ll lp) lq)) (List.zipWith (fun a b => a - b)
        (List.zipWith (fun a b => a + b) ll lp) lq) i (by omega)
    have hlu := getD_map_gen Real.log 0 0 u i hiu
    rw [getD_zipWith_gen _ 0 0 false _ _ i (by simp [List.length_map]; omega)
      (by simp [List.length_map]; omega), hsh, hlu, decide_eq_true_eq]
  · intro t ht
    rw [hmain] at ht
    rcases ht
    constructor <;> simp [mkSamples]
  · intro a b c hla hlb hlc hu hbound
    subst hla hlb hlc
    have hlw : List.zipWith (fun t1 t2 => t1 - t2)
        (List.zipWith (fun t1 t2 => t1 + t2) (List.replicate N a) (List.replicate N b))
          (List.replicate N c) = List.replicate N (a + b - c) := by
      rw [zipWith_replicate_both, zipWith_replicate_both]
    have haccept : List.zipWith (fun w lu => decide (lu < w))
        ((List.replicate N (a + b - c)).map (fun t => t - listMax (List.replicate N (a + b - c))))
          (u.map Real.log) = List.replicate N true := by
      cases Nat.eq_zero_or_pos N with
      | inl h0 =>
        subst h0
        have : u = [] := List.length_eq_zero.mp hu
        subst this
        simp
      | inr hpos =>
        rw [listMax_replicate N (a + b - c) (by omega), List.map_replicate, sub_self]
        have hlen : N = (u.map Real.log).length := by simp [hu]
        rw [hlen, zipWith_replicate_left_map]
        have hall : ∀ v ∈ u.map Real.log, decide (v < (0 : ℝ)) = true := by
          intro v hv
          rcases List.mem_map.mp hv with ⟨w, hw, rfl⟩
          exact decide_eq_true (Real.log_neg (hbound w hw).1 (hbound w hw).2)
        rw [map_eq_replicate_true _ _ hall]
    constructor
    · rw [hmain, hlw, haccept]
      have h1 : maskSelect (List.replicate N true) x = x := by
        rw [← hx]; exact maskSelect_all_true x
      have h2 : maskSelect (List.replicate N true) (List.replicate N a)
          = List.replicate N a := by
        conv in List.replicate N true =>
          rw [show N = (List.replicate N (a : ℝ)).length by simp]
        exact maskSelect_all_true _
      have h3 : maskSelect (List.replicate N true) (List.replicate N b)
          = List.replicate N b := by
        conv in List.replicate N true =>
          rw [show N = (List.replicate N (b : ℝ)).length by simp]
        exact maskSelect_all_true _
      rw [h1, h2, h3]
    · intro t ht
      rw [hmain, hlw, haccept] at ht
      have h1 : maskSelect (List.replicate N true) x = x := by
        rw [← hx]; exact maskSelect_all_true x
      rw [h1] at ht
      rcases ht
      simp [mkSamples]

/-- Witness for C6 at two equal-weight draws with uniforms one half. -/
theorem c6_rejection_sample_exact_witness :
    @C6Post (fun a b => Classical.propDecidable (a < b)) [[0], [1]] [0, 0] [0, 0] [0, 0]
      [1 / 2, 1 / 2] 2 :=
  @c6_rejection_sample_exact (fun a b => Classical.propDecidable (a < b)) [[0], [1]]
    [0, 0] [0, 0] [0, 0] [1 / 2, 1 / 2] 2 rfl rfl rfl rfl

/-- The conclusion of claim C4: resampling at the current temperature is
a warning-emitting no-op returning the set itself, and otherwise the
output is a fresh tempered set at the target temperature whose rows are
selected by the categorical draw over the normalized probabilities
`exp(log_w - logsumexp(log_w))`, which sum to one. -/
def C4Post (x : List (List ℝ)) (ll lp lq : List ℝ) (b0 bt : ℝ)
    (n_samples : Option ℕ) (choice : ℕ → ℕ → List ℝ → List ℕ) (N : ℕ)
    [instB : Decidable
      ((⟨x, some ll, some lp, some lq, some b0, none, none⟩ : SMCSamples).beta
        = some bt)] : Prop :=
  (∀ (t : SMCSamples) (beta : ℝ) (m : Option ℕ) (ch : ℕ → ℕ → List ℝ → List ℕ)
    (inst : Decidable (t.beta = some beta)), t.beta = some beta →
      @SMCSamples.resample t beta m ch inst = some ((t, true))) ∧
  (((⟨x, some ll, some lp, some lq, some b0, none, none⟩ : SMCSamples).log_weights
      bt).isSome = true ∧
   ∀ lw, (⟨x, some ll, some lp, some lq, some b0, none, none⟩ : SMCSamples).log_weights
      bt = some lw →
     lw.length = N ∧
     (lw.map (fun v => Real.exp (v - logsumexp lw))).sum = 1 ∧
     @SMCSamples.resample ⟨x, some ll, some lp, some lq, some b0, none, none⟩ bt
         n_samples choice instB
       = some ((⟨(choice N (n_samples.getD N)
             (lw.map (fun v => Real.exp (v - logsumexp lw)))).map (fun i => x.getD i []),
           some ((choice N (n_samples.getD N)
             (lw.map (fun v => Real.exp (v - logsumexp lw)))).map (fun i => ll.getD i 0)),
           some ((choice N (n_samples.getD N)
             (lw.map (fun v => Real.exp (v - logsumexp lw)))).map (fun i => lp.getD i 0)),
           some ((choice N (n_samples.getD N)
             (lw.map (fun v => Real.exp (v - logsumexp lw)))).map (fun i => lq.getD i 0)),
           some bt, none, none⟩, false)))

/-- Claim C4: `resample(beta_target)` at `beta_target == beta_current`
warns and returns the identical set (no resampled copy); otherwise it
normalizes `log_weights(beta_target)` into probabilities
`p = exp(log_w - logsumexp(log_w))` (which sum to one), draws `n_samples`
(default: the input size `N`) indices from the categorical distribution
with those probabilities, and returns a new tempered set at `beta_target`
whose `x`, `log_likelihood`, `log_prior` and `log_q` are the selected
rows of the input. -/
theorem c4_resample_exact (x : List (List ℝ)) (ll lp lq : List ℝ) (b0 bt : ℝ)
    (n_samples : Option ℕ) (choice : ℕ → ℕ → List ℝ → List ℕ) (N : ℕ)
    [instB : Decidable
      ((⟨x, some ll, some lp, some lq, some b0, none, none⟩ : SMCSamples).beta
        = some bt)]
    (hx : x.length = N) (hll : ll.length = N) (hlp : lp.length = N)
    (hlq : lq.length = N) (hN : 1 ≤ N) (hb : b0 ≠ bt) :
    C4Post x ll lp lq b0 bt n_samples choice N := by
  constructor
  · intro t beta m ch inst h
    unfold SMCSamples.resample
    rw [if_pos h]
  · constructor
    · simp [SMCSamples.log_weights, SMCSamples.unnormalized_log_weights]
    · intro lw hlw
      have hbne : ¬ ((⟨x, some ll, some lp, some lq, some b0, none,
          none⟩ : SMCSamples).beta = some bt) :=
        fun hc => hb (Option.some.inj hc)
      have hlen : lw.length = N := by
        simp only [SMCSamples.log_weights, SMCSamples.unnormalized_log_weights,
          Option.map_some', Option.some.injEq] at hlw
        rw [← hlw]
        simp [List.length_zipWith, hll, hlp, hlq]
      have hne : lw ≠ [] := by
        intro hc
        rw [hc] at hlen
        simp at hlen
        omega
      refine ⟨hlen, normalized_exp_sum_eq_one lw hne, ?_⟩
      simp only [SMCSamples.resample, hbne, if_false, hlw, hx]

/-- Witness for C4 at a one-draw tempered set moved from temperature 0
to 1, with a categorical draw that picks index 0. -/
theorem c4_resample_exact_witness :
    @C4Post [[0]] [0] [0] [0] 0 1 none (fun _ _ _ => [0]) 1
      (Classical.propDecidable
        ((⟨[[0]], some [0], some [0], some [0], some 0, none,
          none⟩ : SMCSamples).beta = some 1)) :=
  @c4_resample_exact [[0]] [0] [0] [0] 0 1 none (fun _ _ _ => [0]) 1
    (Classical.propDecidable
      ((⟨[[0]], some [0], some [0], some [0], some 0, none,
        none⟩ : SMCSamples).beta = some 1))
    rfl rfl rfl rfl (by omega) zero_ne_one

/-- The conclusion of claim C8: the returned set's posterior draws are
the inverse-transformed flattened chain, and its evidence fields are the
importance-sampling estimate computed on the independent fresh proposal
batch of `n_samples` draws (the same values a weighted `Samples` built
from that batch carries), while the chain set itself has no weights. -/
def C8Post (env : EmceeEnv) (n_samples : ℕ) (nwalkers : Option ℕ)
    (nsteps discard : ℕ) : Prop :=
  let r := emcee_sample env n_samples nwalkers nsteps discard
  let xe := (env.sample_and_log_prob n_samples).1
  let lqe := (env.sample_and_log_prob n_samples).2
  let lle := env.log_likelihood_fn xe
  let lpe := env.log_prior_fn xe
  let lw := List.zipWith (fun a b => a - b) (List.zipWith (fun a b => a + b) lle lpe) lqe
  let sEvidence := mkSamples xe (some lle) (some lpe) (some lqe) none none
  r.x = env.inverse (env.run_chain (env.fit (env.flow_sample
      (orDefault nwalkers n_samples))) nsteps discard) ∧
  r.log_evidence = some (logsumexp lw - Real.log (n_samples : ℝ)) ∧
  r.log_evidence = sEvidence.log_evidence ∧
  r.log_evidence_error = sEvidence.log_evidence_error ∧
  r.log_evidence_error.isSome = true ∧
  r.log_q = none ∧
  r.log_w = none

/-- Claim C8: the ensemble driver draws an independent fresh batch of
`n_samples` from the proposal (not from the chain), computes the §4.1
self-normalized importance-sampling evidence estimate on that batch, and
attaches the resulting `log_evidence` and `log_evidence_error` to the
returned sample set, whose posterior draws are the flattened,
inverse-transformed MCMC chain. -/
theorem c8_emcee_sample_evidence (env : EmceeEnv) (n_samples : ℕ)
    (nwalkers : Option ℕ) (nsteps discard : ℕ)
    (hxe : (env.sample_and_log_prob n_samples).1.length = n_samples) :
    C8Post env n_samples nwalkers nsteps discard := by
  refine ⟨?_, ?_, ?_, ?_, ?_, ?_, ?_⟩
  · simp [emcee_sample, mkSamples]
  · simp [emcee_sample, mkSamples, Samples.compute_weights, compute_weights_core, hxe]
  · simp [emcee_sample, mkSamples, Samples.compute_weights, compute_weights_core]
  · simp [emcee_sample, mkSamples, Samples.compute_weights, compute_weights_core]
  · simp [emcee_sample, mkSamples, Samples.compute_weights, compute_weights_core]
  · simp [emcee_sample, mkSamples]
  · simp [emcee_sample, mkSamples]

/-- A concrete collaborator environment: a constant proposal flow, zero
log-densities, identity transforms and a kernel that returns its starting
population. -/
def envConst : EmceeEnv :=
  ⟨fun n => List.replicate n [0],
   fun n => (List.replicate n [0], List.replicate n 0),
   fun xs => List.replicate xs.length 0,
   fun xs => List.replicate xs.length 0,
   fun z => z,
   fun z _ _ => z,
   fun z => z⟩

/-- Witness for C8 on the constant environment with two requested
samples. -/
theorem c8_emcee_sample_evidence_witness : C8Post envConst 2 none 5 0 :=
  c8_emcee_sample_evidence envConst 2 none 5 0 (by simp [envConst])

/-- A fixed two-draw tempered set at temperature 0 with distinguishable
rows, used to exhibit the dependence of `resample` on the process-global
RNG. -/
def c9set : SMCSamples :=
  ⟨[[0], [1]], some [0, 0], some [0, 0], some [0, 0], some 0, none, none⟩

/-- Deciding that the counterexample set's temperature differs from the
target temperature 1. -/
def c9dec : Decidable (c9set.beta = some (1 : ℝ)) :=
  isFalse (fun h => zero_ne_one (Option.some.inj h))

/-- Counterexample to claim C9: `resample` takes no caller-supplied
generator — its categorical draw comes from the process-global numpy RNG
(modelled by the `choice` argument).  With every caller-visible input
fixed, two global RNG states (one selecting row 0 twice, one selecting
row 1 twice) produce different outputs, so resampling runs are not
reproducible from a caller-supplied generator state. -/
theorem c9_counterexample :
    @SMCSamples.resample c9set 1 none (fun _ _ _ => [0, 0]) c9dec
      ≠ @SMCSamples.resample c9set 1 none (fun _ _ _ => [1, 1]) c9dec := by
  intro h
  simp only [SMCSamples.resample, c9set, c9dec, SMCSamples.log_weights,
    SMCSamples.unnormalized_log_weights, Option.map_some'] at h
  norm_num at h

/-- Claim C9 as amended: only rejection sampling accepts a caller-supplied
generator; with one supplied, its output is a function of the sample set
and that generator alone (identical across any two process-default
generator states), and only when none is supplied does the process-default
generator determine the draws.  Tempered resampling offers no generator
parameter and its output depends on hidden process-global RNG state (see
the counterexample). -/
theorem c9_rejection_rng_reproducible :
    (∀ (s : Samples) (r : Urng) (g1 g2 : Urng)
      (inst : DecidableRel ((· < ·) : ℝ → ℝ → Prop)),
        @rejection_sample_rng s (some r) g1 inst
          = @rejection_sample_rng s (some r) g2 inst) ∧
    (∀ (s : Samples) (g : Urng) (inst : DecidableRel ((· < ·) : ℝ → ℝ → Prop)),
      @rejection_sample_rng s none g inst
        = @Samples.rejection_sample s (g s.x.length) inst) := by
  constructor
  · intro s r g1 g2 inst
    rfl
  · intro s g inst
    rfl
